import Mathlib

/-!
Verification of the loss-list codec (`srt-protocol/src/packet/control/loss_compression.rs`)
and the socket builder (`src/builder.rs`) of the srt-rs repository.

Machine integers are embedded as `Nat` with explicit reductions modulo `2 ^ 31`
(the 31-bit `SeqNumber` space) and `2 ^ 32` (`u32` words on the wire).  The two
Rust `Iterator` implementations are embedded as step functions over their state
structs; a fuel-driven collector (the fuel is a proved-sufficient bound on the
number of steps, so it never runs out on the states reachable from the public
entry points) turns a stepper into the full output list, mirroring `collect()`.
-/

/-- Error kinds of the loss codec.  `orderingViolation` embeds the failure of the
`assert!(this < self.next?)` in `CompressLossList::next`; `unterminatedRun` embeds the
failure arm `None => ...` (message "unterminated loop while decompressing loss list")
in `DecompressLossList::next`. -/
inductive LossError where
  | orderingViolation
  | unterminatedRun
deriving DecidableEq

instance {ε α : Type} [DecidableEq ε] [DecidableEq α] : DecidableEq (Except ε α)
  | .ok x, .ok y => decidable_of_iff (x = y) (by simp)
  | .ok _, .error _ => isFalse (by simp)
  | .error _, .ok _ => isFalse (by simp)
  | .error x, .error y => decidable_of_iff (x = y) (by simp)

/-- Modelled from the spec: the strict modular comparison of 31-bit `SeqNumber`s
(the `modular_num` module is not among the provided sources).  Spec section 3:
"Integer in `[0, 2^31)` with modular comparison: `a < b` iff `(b - a) mod 2^31 < 2^30`",
read as a strict relation (so `a < a` is excluded).  The subtraction is the wrapping
31-bit one. -/
def seqLt (a b : Nat) : Prop :=
  a ≠ b ∧ (b + 2 ^ 31 - a % 2 ^ 31) % 2 ^ 31 < 2 ^ 30

instance (a b : Nat) : Decidable (seqLt a b) :=
  inferInstanceAs (Decidable (a ≠ b ∧ (b + 2 ^ 31 - a % 2 ^ 31) % 2 ^ 31 < 2 ^ 30))

/-- Modelled from the spec: wrapping 31-bit `SeqNumber` addition (`modular_num` is not
among the provided sources; spec section 3 says arithmetic is modular over `[0, 2^31)`). -/
def seqAdd (a k : Nat) : Nat := (a + k) % 2 ^ 31

/-- Modelled from the spec: `SeqNumber::new_truncate`, which truncates a 32-bit word to
the 31-bit sequence-number space. -/
def newTruncate (x : Nat) : Nat := x % 2 ^ 31

/-- State struct of the compressing iterator, from `loss_compression.rs`:
`iterator` is the remaining underlying iterator (a list of `SeqNumber`s, embedded as
naturals below `2 ^ 31`), `next` the one-element lookahead, `last_in_loop` is `some`
while inside a run. -/
structure CompressLossList where
  iterator : List Nat
  next : Option Nat
  last_in_loop : Option Nat
deriving DecidableEq

/-- The `loop { ... }` body of `CompressLossList::next`, entered with `cur` (called
`this` in the source) already holding the element to decide about.  Each iteration pops
the underlying iterator; the four outcomes of the source are: iterator exhausted (return
`this.as_raw()` with `next` invalidated), ordering violated (the `assert!`), run
continued (`last_in_loop + 2 == next`, loop again), run broken / started / not needed
(return a word).  The source's `if let Some(last_in_loop) = ...` is flattened into the
top-level pattern; the `assert!` guards each arm exactly as in the source. -/
def compressLoop (cur : Nat) (it : List Nat) (lil : Option Nat) :
    Except LossError (Nat × CompressLossList) :=
  match it, lil with
  | [], lil => .ok (cur, ⟨[], none, lil⟩)
  | i :: rest, some l =>
    if seqLt cur i then
      if seqAdd l 2 = i then
        compressLoop i rest (some (seqAdd l 1))
      else
        .ok (cur, ⟨rest, some i, none⟩)
    else
      .error .orderingViolation
  | i :: rest, none =>
    if seqLt cur i then
      if seqAdd cur 1 = i then
        .ok (cur ||| (1 <<< 31), ⟨rest, some i, some cur⟩)
      else
        .ok (cur, ⟨rest, some i, none⟩)
    else
      .error .orderingViolation

/-- `CompressLossList::next` (named `compressNext` because the state struct already has a
field `next`): if the lookahead is empty it is first filled from the underlying iterator
(returning `None` when that is exhausted), then the loop body runs. -/
def compressNext (s : CompressLossList) : Except LossError (Option (Nat × CompressLossList)) :=
  match s.next with
  | some cur => (compressLoop cur s.iterator s.last_in_loop).map some
  | none =>
    match s.iterator with
    | [] => .ok none
    | x :: rest => (compressLoop x rest s.last_in_loop).map some

/-- Drives `compressNext` to exhaustion, i.e. `collect::<Vec<_>>()`.  The fuel only
bounds the number of steps; `compress_loss_list` passes a proved-sufficient amount. -/
def collectCompress : Nat → CompressLossList → Except LossError (List Nat)
  | 0, _ => .ok []
  | fuel + 1, s =>
    match compressNext s with
    | .error e => .error e
    | .ok none => .ok []
    | .ok (some (w, s2)) => (collectCompress fuel s2).map (w :: ·)

/-- `compress_loss_list` collected to a list: start state has empty lookahead and no run.
Every step of the iterator strictly shrinks `iterator.length + lookahead`, so
`xs.length + 1` units of fuel are always sufficient. -/
def compress_loss_list (xs : List Nat) : Except LossError (List Nat) :=
  collectCompress (xs.length + 1) ⟨xs, none, none⟩

/-- State struct of the decompressing iterator, from `loss_compression.rs`:
`loop_next_end` is `some (next, end)` while an inclusive run `[next, end]` is being
expanded (both are raw `u32` words, embedded as naturals below `2 ^ 32`). -/
structure DecompressLossList where
  iterator : List Nat
  loop_next_end : Option (Nat × Nat)
deriving DecidableEq

/-- `DecompressLossList::next`.  While inside a run, yield `new_truncate(next)` and step
`next` with wrapping `u32` increment until it equals `end` (raw 32-bit equality).
Otherwise consume a word: with bit 31 clear, yield it truncated; with bit 31 set, mask
bit 31 off (`& !(1 << 31)`, i.e. `&&& (2 ^ 31 - 1)` on a `u32`), require a successor
word as the run end (else the unterminated-run failure) and enter the run state. -/
def decompressNext (s : DecompressLossList) :
    Except LossError (Option (Nat × DecompressLossList)) :=
  match s.loop_next_end with
  | some (nxt, e) =>
    if nxt = e then
      .ok (some (newTruncate nxt, { s with loop_next_end := none }))
    else
      .ok (some (newTruncate nxt, { s with loop_next_end := some ((nxt + 1) % 2 ^ 32, e) }))
  | none =>
    match s.iterator with
    | [] => .ok none
    | w :: rest =>
      if w &&& (1 <<< 31) ≠ 0 then
        match rest with
        | [] => .error .unterminatedRun
        | e :: rest2 =>
          .ok (some (newTruncate (w &&& (2 ^ 31 - 1)),
            ⟨rest2, some ((w &&& (2 ^ 31 - 1)) + 1, e)⟩))
      else
        .ok (some (newTruncate w, { s with iterator := rest }))

/-- Drives `decompressNext` to exhaustion; fuel as in `collectCompress`. -/
def collectDecompress : Nat → DecompressLossList → Except LossError (List Nat)
  | 0, _ => .ok []
  | fuel + 1, s =>
    match decompressNext s with
    | .error e => .error e
    | .ok none => .ok []
    | .ok (some (x, s2)) => (collectDecompress fuel s2).map (x :: ·)

/-- `decompress_loss_list` collected to a list.  The input words are `u32`, which the
embedding records by reducing each modulo `2 ^ 32`.  A single run of `u32` words can
yield at most `2 ^ 32 + 1` numbers (when `end` raw-precedes `next` the increment wraps
the whole 32-bit space), so `length * (2 ^ 32 + 2) + 1` units of fuel always suffice. -/
def decompress_loss_list (xs : List Nat) : Except LossError (List Nat) :=
  collectDecompress (xs.length * (2 ^ 32 + 2) + 1) ⟨xs.map (· % 2 ^ 32), none⟩

/-- Step-count measure for the compressing iterator, used to discharge the fuel. -/
def muC (s : CompressLossList) : Nat :=
  s.iterator.length + (match s.next with | some _ => 1 | none => 0)

/-- Wrapping distance from `a` up to `b` in the 32-bit circle (for `a ≤ 2 ^ 32`). -/
def dist32 (a b : Nat) : Nat := (b + 2 ^ 32 - a) % 2 ^ 32

/-- Step-count measure for the decompressing iterator, used to discharge the fuel. -/
def muD (s : DecompressLossList) : Nat :=
  s.iterator.length * (2 ^ 32 + 2) +
    (match s.loop_next_end with
     | none => 0
     | some (n, e) => dist32 n e + 2)

/-- Well-formedness of a decompressor state: every stored word fits in a `u32`. -/
def wfD (s : DecompressLossList) : Prop :=
  (∀ w ∈ s.iterator, w < 2 ^ 32) ∧
    (∀ n e, s.loop_next_end = some (n, e) → n < 2 ^ 32 ∧ e < 2 ^ 32)

/-- The numbers yielded by the run loop from state `(n, e)`: `n`, then wrapping `u32`
increments, until `e` is hit, each truncated to 31 bits.  Derived closed form used in
proofs about `decompressNext`. -/
def loopList (n e : Nat) : List Nat :=
  (List.range' n (dist32 n e + 1)).map (· % 2 ^ 31)

/-- The numbers yielded for one compressed run `start | (1 << 31), e`: `start`, then
wrapping `u32` increments until `e` is hit — hence
`dist32 (start + 1) e + 2 = ((e - start - 1) mod 2^32) + 2` numbers in total — each
truncated to 31 bits.  When `start < e` this is exactly the inclusive range
`[start, e]`; when `e ≤ start` the loop wraps the whole 32-bit space. -/
def expandRun (start e : Nat) : List Nat :=
  (List.range' start (dist32 (start + 1) e + 2)).map (· % 2 ^ 31)

/-- Closed (per-word structural) form of the decompressor on a list of `u32` words,
derived from `decompressNext`: a word with bit 31 clear yields itself truncated; a word
with bit 31 set consumes the following word `e` and yields `expandRun`; a trailing
run-start word fails. -/
def decompressGo : List Nat → Except LossError (List Nat)
  | [] => .ok []
  | w :: rest =>
    if w &&& (1 <<< 31) ≠ 0 then
      match rest with
      | [] => .error .unterminatedRun
      | e :: rest2 => (decompressGo rest2).map (expandRun (w &&& (2 ^ 31 - 1)) e ++ ·)
    else
      (decompressGo rest).map ((w % 2 ^ 31) :: ·)

/-- Follows the claim's words (C3): the decompressor described range by range, on the
input words reduced to `u32`. -/
def decompressRanges (xs : List Nat) : Except LossError (List Nat) :=
  decompressGo (xs.map (· % 2 ^ 32))

/-- Follows the claim's words (C5): the input ends with a run-start word (bit 31 set)
that has no successor word; run-start words in interior positions consume their
successor, so the scan walks the words pairwise exactly as the decoder does. -/
def hasTrailingRunStart : List Nat → Bool
  | [] => false
  | [w] => w &&& (1 <<< 31) != 0
  | w :: e :: rest =>
    if w &&& (1 <<< 31) ≠ 0 then hasTrailingRunStart rest
    else hasTrailingRunStart (e :: rest)

/-- Follows the claim's words (C2): scan with one-element lookahead; a maximal run of
two or more consecutive numbers is emitted as its first element with bit 31 set followed
by its last element; singletons are emitted verbatim.  `inRun` tells whether the current
element continues an already-opened run. -/
def runsGo : Bool → Nat → List Nat → List Nat
  | _, cur, [] => [cur]
  | true, cur, y :: ys =>
    if y = seqAdd cur 1 then runsGo true y ys
    else cur :: runsGo false y ys
  | false, cur, y :: ys =>
    if y = seqAdd cur 1 then (cur ||| (1 <<< 31)) :: runsGo true y ys
    else cur :: runsGo false y ys

/-- Follows the claim's words (C2): the run-length encoding of a strictly ascending loss
list. -/
def runsSpec : List Nat → List Nat
  | [] => []
  | x :: rest => runsGo false x rest

/-- Strict modular ascent whose consecutive steps do not cross the `2^31 - 1 → 0` wrap
boundary; the amended hypothesis of the roundtrip claim (C1). -/
def seqOk (a b : Nat) : Prop :=
  seqLt a b ∧ ¬(a = 2 ^ 31 - 1 ∧ b = 0)

instance (a b : Nat) : Decidable (seqOk a b) :=
  inferInstanceAs (Decidable (seqLt a b ∧ ¬(a = 2 ^ 31 - 1 ∧ b = 0)))

/-- All words the compressing iterator emits from the loop state `(cur, it, lil)`:
the fused (per-element structural) form of `compressLoop` + collection.  Derived form
used in proofs. -/
def compressList (cur : Nat) (it : List Nat) (lil : Option Nat) : Except LossError (List Nat) :=
  match it, lil with
  | [], _ => .ok [cur]
  | i :: rest, some l =>
    if seqLt cur i then
      if seqAdd l 2 = i then
        compressList i rest (some (seqAdd l 1))
      else
        (compressList i rest none).map (cur :: ·)
    else
      .error .orderingViolation
  | i :: rest, none =>
    if seqLt cur i then
      if seqAdd cur 1 = i then
        (compressList i rest (some cur)).map ((cur ||| (1 <<< 31)) :: ·)
      else
        (compressList i rest none).map (cur :: ·)
    else
      .error .orderingViolation

/-- Fused compressor semantics: what collecting the iterator from an arbitrary state
yields.  Derived form used in proofs. -/
def compressFused (s : CompressLossList) : Except LossError (List Nat) :=
  match s.next with
  | some cur => compressList cur s.iterator s.last_in_loop
  | none =>
    match s.iterator with
    | [] => .ok []
    | x :: rest => compressList x rest s.last_in_loop

/-- Fused decompressor semantics from an arbitrary state.  Derived form used in
proofs. -/
def decompressFused : DecompressLossList → Except LossError (List Nat)
  | ⟨it, none⟩ => decompressGo it
  | ⟨it, some (n, e)⟩ => (decompressGo it).map (loopList n e ++ ·)

/-- Connection-init methods of the builder (`src/builder.rs`); the socket address
payload is embedded as an opaque numeric token. -/
inductive ConnInitMethod where
  | Listen
  | Connect (addr : Nat)
  | Rendezvous (addr : Nat)
deriving DecidableEq

/-- The builder struct `SrtSocketBuilder` (`src/builder.rs`).  `local_addr` is the
address token, `latency` the TSBPD latency in milliseconds, `crypto` the optional
`(size, passphrase)` pair. -/
structure SrtSocketBuilder where
  local_addr : Nat
  conn_type : ConnInitMethod
  latency : Nat
  crypto : Option (Nat × String)
deriving DecidableEq

/-- `SrtSocketBuilder::new`: defaults to binding `0.0.0.0:0` (token 0), 50 ms latency,
no encryption. -/
def SrtSocketBuilder.new (conn_type : ConnInitMethod) : SrtSocketBuilder :=
  { local_addr := 0, conn_type := conn_type, latency := 50, crypto := none }

/-- `SrtSocketBuilder::new_listen`. -/
def SrtSocketBuilder.new_listen : SrtSocketBuilder :=
  { local_addr := 0, conn_type := .Listen, latency := 50, crypto := none }

/-- `SrtSocketBuilder::new_connect` with `to` already resolved to an address token. -/
def SrtSocketBuilder.new_connect (toAddr : Nat) : SrtSocketBuilder :=
  { local_addr := 0, conn_type := .Connect toAddr, latency := 50, crypto := none }

/-- `SrtSocketBuilder::new_rendezvous` with `to` already resolved to an address token.
Transcribed exactly from the source, which stores `ConnInitMethod::Connect(...)` in
`conn_type` (src/builder.rs lines 115-122). -/
def SrtSocketBuilder.new_rendezvous (toAddr : Nat) : SrtSocketBuilder :=
  { local_addr := 0, conn_type := .Connect toAddr, latency := 50, crypto := none }

/-- Builder error values; the source uses `failure::bail!` with these messages:
`invalidCryptoSize size` for "Invalid crypto size: {size}. Expected 16, 24, or 32" and
`multiplexModeNotListen` for "Cannot bind multiplexed with any connection mode other
than listen". -/
inductive BuilderError where
  | invalidCryptoSize (size : Nat)
  | multiplexModeNotListen
deriving DecidableEq

/-- The observable outcome of `connect_with_sock` short of the network: which
`pending_connection` routine is invoked and with which arguments (the `rand::random()`
initial sequence numbers are external and not recorded). -/
inductive ConnAction where
  | listen (latency : Nat)
  | connect (addr : Nat) (local_ip : Nat) (latency : Nat) (crypto : Option (Nat × String))
  | rendezvous (local_ip : Nat) (remote_public : Nat) (latency : Nat)
deriving DecidableEq

/-- The dispatch on `self.conn_type` at the end of `connect_with_sock`. -/
def connDispatch (b : SrtSocketBuilder) : ConnAction :=
  match b.conn_type with
  | .Listen => .listen b.latency
  | .Connect addr => .connect addr b.local_addr b.latency b.crypto
  | .Rendezvous remote_public => .rendezvous b.local_addr remote_public b.latency

/-- `SrtSocketBuilder::connect_with_sock` up to its first network interaction: the
crypto-size validation (`match self.crypto`) runs first and bails on any size other
than none, 16, 24 or 32; only then is a pending-connection routine started. -/
def connect_with_sock (b : SrtSocketBuilder) : Except BuilderError ConnAction :=
  match b.crypto with
  | none => .ok (connDispatch b)
  | some (16, _) => .ok (connDispatch b)
  | some (24, _) => .ok (connDispatch b)
  | some (32, _) => .ok (connDispatch b)
  | some (size, _) => .error (.invalidCryptoSize size)

/-- The observable outcome of `build_multiplexed`: `MultiplexServer::bind` called with
the builder's local address and latency. -/
inductive MultiplexAction where
  | bind (local_addr : Nat) (latency : Nat)
deriving DecidableEq

/-- `SrtSocketBuilder::build_multiplexed`: binds a multiplex server only in `Listen`
mode, otherwise bails. -/
def build_multiplexed (b : SrtSocketBuilder) : Except BuilderError MultiplexAction :=
  match b.conn_type with
  | .Listen => .ok (.bind b.local_addr b.latency)
  | _ => .error .multiplexModeNotListen

/-- Modelled from the spec: the TSBPD latency agreed at handshake completion (the
`pending_connection` negotiation code is not among the provided sources).  Spec
section 3: "TSBPD latency (agreed as `max(local_proposed, remote_proposed)`)". -/
def agreed_tsbpd_latency (local_proposed remote_proposed : Nat) : Nat :=
  max local_proposed remote_proposed

example : compress_loss_list [13, 14, 15, 16, 17, 18, 19] = .ok [13 ||| (1 <<< 31), 19] := by
  decide

example : decompress_loss_list [13 ||| (1 <<< 31), 19] = .ok [13, 14, 15, 16, 17, 18, 19] := by
  decide

example : compress_loss_list [1, 2, 3, 4, 5, 9, 11, 12, 13, 16, 17] =
    .ok [1 ||| (1 <<< 31), 5, 9, 11 ||| (1 <<< 31), 13, 16 ||| (1 <<< 31), 17] := by
  decide

example : runsSpec [1, 2, 3, 4, 5, 9, 11, 12, 13, 16, 17] =
    [1 ||| (1 <<< 31), 5, 9, 11 ||| (1 <<< 31), 13, 16 ||| (1 <<< 31), 17] := by
  decide

example : compress_loss_list [10, 1] = .error .orderingViolation := by decide

example : decompress_loss_list [10 ||| (1 <<< 31)] = .error .unterminatedRun := by decide

example : compress_loss_list [2 ^ 31 - 1, 0] = .ok [2 ^ 31 - 1 ||| (1 <<< 31), 0] := by decide

example : compress_loss_list [15, 16] = .ok [15 ||| (1 <<< 31), 16] := by decide

example : decompress_loss_list [15 ||| (1 <<< 31), 16] = .ok [15, 16] := by decide

theorem exMap_eq_error {ε α β : Type} {f : α → β} {x : Except ε α} {e : ε} :
    x.map f = .error e ↔ x = .error e := by
  cases x <;> simp [Except.map]

theorem exMap_map {ε α β γ : Type} (f : β → γ) (g : α → β) (x : Except ε α) :
    (x.map g).map f = x.map (fun a => f (g a)) := by
  cases x <;> rfl

theorem exBind_ok {ε α β : Type} (a : α) (f : α → Except ε β) :
    (Except.ok a).bind f = f a := rfl

theorem shiftLeft31 : (1 <<< 31 : Nat) = 2 ^ 31 := by
  norm_num [Nat.shiftLeft_eq]

theorem and_mask31 (x : Nat) : x &&& (2 ^ 31 - 1) = x % 2 ^ 31 :=
  Nat.and_pow_two_sub_one_eq_mod x 31

theorem msb_clear {x : Nat} (h : x < 2 ^ 31) : x &&& (1 <<< 31) = 0 := by
  rw [shiftLeft31, Nat.and_two_pow, Nat.testBit_lt_two_pow h]
  simp

theorem msb_set {x : Nat} (_h : x < 2 ^ 31) : (x ||| (1 <<< 31)) &&& (1 <<< 31) ≠ 0 := by
  rw [shiftLeft31, Nat.and_two_pow, Nat.testBit_lor, Nat.testBit_two_pow_self]
  simp

theorem or_mask31 {x : Nat} (h : x < 2 ^ 31) : (x ||| (1 <<< 31)) &&& (2 ^ 31 - 1) = x := by
  rw [shiftLeft31, Nat.and_distrib_right, and_mask31, and_mask31, Nat.mod_self, Nat.or_zero,
    Nat.mod_eq_of_lt h]

theorem or31_lt {x : Nat} (h : x < 2 ^ 31) : x ||| (1 <<< 31) < 2 ^ 32 := by
  rw [shiftLeft31]
  exact Nat.or_lt_two_pow (by omega) (by norm_num)

theorem dist32_lt (a b : Nat) : dist32 a b < 2 ^ 32 :=
  Nat.mod_lt _ (by norm_num)

theorem dist32_self (n : Nat) : dist32 n n = 0 := by
  unfold dist32
  omega

theorem dist32_succ {n e : Nat} (hn : n < 2 ^ 32) (he : e < 2 ^ 32) (hne : n ≠ e) :
    dist32 n e = dist32 ((n + 1) % 2 ^ 32) e + 1 := by
  unfold dist32
  omega

theorem loopList_self (n : Nat) : loopList n n = [n % 2 ^ 31] := by
  unfold loopList
  rw [dist32_self]
  rfl

theorem loopList_step {n e : Nat} (hn : n < 2 ^ 32) (he : e < 2 ^ 32) (hne : n ≠ e) :
    loopList n e = (n % 2 ^ 31) :: loopList ((n + 1) % 2 ^ 32) e := by
  unfold loopList
  rw [dist32_succ hn he hne, List.range'_succ]
  by_cases h32 : n + 1 < 2 ^ 32
  · rw [Nat.mod_eq_of_lt h32]
    simp
  · have h0 : (n + 1) % 2 ^ 32 = 0 := by omega
    rw [h0]
    simp only [List.map_cons, List.cons.injEq]
    refine ⟨trivial, ?_⟩
    rw [List.range'_eq_map_range, List.range'_eq_map_range, List.map_map, List.map_map]
    refine List.map_congr_left fun a _ => ?_
    show (n + 1 + a) % 2 ^ 31 = (0 + a) % 2 ^ 31
    omega

theorem expandRun_eq (s e : Nat) : expandRun s e = (s % 2 ^ 31) :: loopList (s + 1) e := by
  unfold expandRun loopList
  rw [show dist32 (s + 1) e + 2 = dist32 (s + 1) e + 1 + 1 from rfl, List.range'_succ]
  simp

theorem expandRun_lt {s e : Nat} (hse : s < e) (he : e < 2 ^ 31) :
    expandRun s e = List.range' s (e - s + 1) := by
  unfold expandRun
  have hd : dist32 (s + 1) e + 2 = e - s + 1 := by
    unfold dist32
    omega
  rw [hd]
  have hid : ∀ a ∈ List.range' s (e - s + 1), a % 2 ^ 31 = a := by
    intro a ha
    rw [List.mem_range'_1] at ha
    exact Nat.mod_eq_of_lt (by omega)
  simpa using List.map_congr_left hid

theorem compressList_eq_step (it : List Nat) : ∀ (cur : Nat) (lil : Option Nat),
    compressList cur it lil =
      (match compressLoop cur it lil with
       | .error e => .error e
       | .ok (w, s2) => (compressFused s2).map (w :: ·)) := by
  induction it with
  | nil =>
    intro cur lil
    rfl
  | cons i rest ih =>
    intro cur lil
    cases lil with
    | some l =>
      by_cases hlt : seqLt cur i
      · by_cases hrun : seqAdd l 2 = i
        · simp only [compressList, compressLoop, if_pos hlt, if_pos hrun]
          exact ih i (some (seqAdd l 1))
        · simp only [compressList, compressLoop, if_pos hlt, if_neg hrun]
          rfl
      · simp only [compressList, compressLoop, if_neg hlt]
    | none =>
      by_cases hlt : seqLt cur i
      · by_cases hrun : seqAdd cur 1 = i
        · simp only [compressList, compressLoop, if_pos hlt, if_pos hrun]
          rfl
        · simp only [compressList, compressLoop, if_pos hlt, if_neg hrun]
          rfl
      · simp only [compressList, compressLoop, if_neg hlt]

theorem compressFused_step (s : CompressLossList) :
    compressFused s =
      (match compressNext s with
       | .error e => .error e
       | .ok none => .ok []
       | .ok (some (w, s2)) => (compressFused s2).map (w :: ·)) := by
  obtain ⟨it, nx, lil⟩ := s
  cases nx with
  | some cur =>
    show compressList cur it lil = _
    rw [compressList_eq_step]
    show _ = (match (compressLoop cur it lil).map some with
      | .error e => .error e
      | .ok none => .ok []
      | .ok (some (w, s2)) => (compressFused s2).map (w :: ·))
    cases compressLoop cur it lil with
    | error e => rfl
    | ok p => rfl
  | none =>
    cases it with
    | nil => rfl
    | cons x rest =>
      show compressList x rest lil = _
      rw [compressList_eq_step]
      show _ = (match (compressLoop x rest lil).map some with
        | .error e => .error e
        | .ok none => .ok []
        | .ok (some (w, s2)) => (compressFused s2).map (w :: ·))
      cases compressLoop x rest lil with
      | error e => rfl
      | ok p => rfl

theorem compressLoop_mu : ∀ (it : List Nat) (cur : Nat) (lil : Option Nat) (w : Nat)
    (s2 : CompressLossList), compressLoop cur it lil = .ok (w, s2) → muC s2 ≤ it.length
  | [], cur, lil, w, s2, h => by
    simp only [compressLoop, Except.ok.injEq, Prod.mk.injEq] at h
    obtain ⟨-, rfl⟩ := h
    simp [muC]
  | i :: rest, cur, some l, w, s2, h => by
    simp only [compressLoop] at h
    by_cases hlt : seqLt cur i
    · rw [if_pos hlt] at h
      by_cases hrun : seqAdd l 2 = i
      · rw [if_pos hrun] at h
        have := compressLoop_mu rest i (some (seqAdd l 1)) w s2 h
        simp only [List.length_cons]
        omega
      · rw [if_neg hrun] at h
        simp only [Except.ok.injEq, Prod.mk.injEq] at h
        obtain ⟨-, rfl⟩ := h
        simp [muC]
    · rw [if_neg hlt] at h
      exact absurd h (by simp)
  | i :: rest, cur, none, w, s2, h => by
    simp only [compressLoop] at h
    by_cases hlt : seqLt cur i
    · rw [if_pos hlt] at h
      by_cases hrun : seqAdd cur 1 = i
      · rw [if_pos hrun] at h
        simp only [Except.ok.injEq, Prod.mk.injEq] at h
        obtain ⟨-, rfl⟩ := h
        simp [muC]
      · rw [if_neg hrun] at h
        simp only [Except.ok.injEq, Prod.mk.injEq] at h
        obtain ⟨-, rfl⟩ := h
        simp [muC]
    · rw [if_neg hlt] at h
      exact absurd h (by simp)

theorem compressNext_mu {s : CompressLossList} {w : Nat} {s2 : CompressLossList}
    (h : compressNext s = .ok (some (w, s2))) : muC s2 < muC s := by
  obtain ⟨it, nx, lil⟩ := s
  cases nx with
  | some cur =>
    simp only [compressNext] at h
    cases hl : compressLoop cur it lil with
    | error e =>
      rw [hl] at h
      exact absurd h (by simp [Except.map])
    | ok p =>
      obtain ⟨w2, s3⟩ := p
      rw [hl] at h
      simp only [Except.map, Except.ok.injEq, Option.some.injEq, Prod.mk.injEq] at h
      have hb := compressLoop_mu it cur lil w2 s3 hl
      rw [← h.2]
      simp only [muC] at hb ⊢
      omega
  | none =>
    cases it with
    | nil => exact absurd h (by simp [compressNext])
    | cons x rest =>
      simp only [compressNext] at h
      cases hl : compressLoop x rest lil with
      | error e =>
        rw [hl] at h
        exact absurd h (by simp [Except.map])
      | ok p =>
        obtain ⟨w2, s3⟩ := p
        rw [hl] at h
        simp only [Except.map, Except.ok.injEq, Option.some.injEq, Prod.mk.injEq] at h
        have hb := compressLoop_mu rest x lil w2 s3 hl
        rw [← h.2]
        simp only [muC, List.length_cons] at hb ⊢
        omega

theorem collectC_eq : ∀ (fuel : Nat) (s : CompressLossList), muC s < fuel →
    collectCompress fuel s = compressFused s
  | 0, _, h => absurd h (by omega)
  | fuel + 1, s, h => by
    rw [collectCompress, compressFused_step s]
    cases hn : compressNext s with
    | error e => rfl
    | ok o =>
      cases o with
      | none => rfl
      | some p =>
        obtain ⟨w, s2⟩ := p
        have hmu : muC s2 < muC s := compressNext_mu hn
        show (collectCompress fuel s2).map (w :: ·) = (compressFused s2).map (w :: ·)
        rw [collectC_eq fuel s2 (by omega)]

theorem compress_eq_fused (xs : List Nat) :
    compress_loss_list xs = compressFused ⟨xs, none, none⟩ :=
  collectC_eq (xs.length + 1) _ (by simp [muC])

theorem compress_nil : compress_loss_list [] = .ok [] := by
  decide

theorem compress_cons (x : Nat) (rest : List Nat) :
    compress_loss_list (x :: rest) = compressList x rest none := by
  rw [compress_eq_fused]
  rfl

theorem seqAdd_one_one (a : Nat) : seqAdd (seqAdd a 1) 1 = seqAdd a 2 := by
  simp [seqAdd, Nat.mod_add_mod]

theorem compressList_runs : ∀ (it : List Nat) (cur : Nat) (lil : Option Nat),
    List.Chain' seqLt (cur :: it) → (∀ x ∈ cur :: it, x < 2 ^ 31) →
    (∀ l, lil = some l → seqAdd l 1 = cur) →
    compressList cur it lil = .ok (runsGo lil.isSome cur it)
  | [], cur, lil, _, _, _ => by
    cases lil <;> rfl
  | i :: rest, cur, some l, hch, hb, hinv => by
    have hl : seqAdd l 1 = cur := hinv l rfl
    have hlt : seqLt cur i := (List.chain'_cons.mp hch).1
    have hch2 : List.Chain' seqLt (i :: rest) := (List.chain'_cons.mp hch).2
    have hb2 : ∀ x ∈ i :: rest, x < 2 ^ 31 := fun x hx => hb x (List.mem_cons_of_mem _ hx)
    have hcond : (seqAdd l 2 = i) ↔ (i = seqAdd cur 1) := by
      rw [← hl, seqAdd_one_one]
      exact eq_comm
    by_cases hrun : seqAdd l 2 = i
    · have hrun2 : i = seqAdd cur 1 := hcond.mp hrun
      simp only [compressList, if_pos hlt, if_pos hrun, hl]
      rw [compressList_runs rest i (some cur) hch2 hb2
        (fun c hc => by rw [← Option.some.inj hc]; exact hrun2.symm)]
      simp only [Option.isSome_some, runsGo, if_pos hrun2]
    · have hrun2 : ¬(i = seqAdd cur 1) := fun hh => hrun (hcond.mpr hh)
      simp only [compressList, if_pos hlt, if_neg hrun]
      rw [compressList_runs rest i none hch2 hb2 (by simp)]
      simp only [Option.isSome_some, Option.isSome_none, runsGo, if_neg hrun2]
      rfl
  | i :: rest, cur, none, hch, hb, _ => by
    have hlt : seqLt cur i := (List.chain'_cons.mp hch).1
    have hch2 : List.Chain' seqLt (i :: rest) := (List.chain'_cons.mp hch).2
    have hb2 : ∀ x ∈ i :: rest, x < 2 ^ 31 := fun x hx => hb x (List.mem_cons_of_mem _ hx)
    by_cases hrun : seqAdd cur 1 = i
    · simp only [compressList, if_pos hlt, if_pos hrun]
      rw [compressList_runs rest i (some cur) hch2 hb2
        (fun c hc => by rw [← Option.some.inj hc]; exact hrun)]
      simp only [Option.isSome_some, Option.isSome_none, runsGo, if_pos hrun.symm]
      rfl
    · have hrun2 : ¬(i = seqAdd cur 1) := fun hh => hrun hh.symm
      simp only [compressList, if_pos hlt, if_neg hrun]
      rw [compressList_runs rest i none hch2 hb2 (by simp)]
      simp only [Option.isSome_none, runsGo, if_neg hrun2]
      rfl

theorem compressList_error : ∀ (it : List Nat) (cur : Nat) (lil : Option Nat),
    (compressList cur it lil = .error .orderingViolation ↔ ¬ List.Chain' seqLt (cur :: it))
  | [], cur, lil => by
    constructor
    · intro h
      cases lil <;> simp [compressList] at h
    · intro h
      exact absurd (List.chain'_singleton cur) h
  | i :: rest, cur, some l => by
    rw [List.chain'_cons]
    by_cases hlt : seqLt cur i
    · by_cases hrun : seqAdd l 2 = i
      · simp only [compressList, if_pos hlt, if_pos hrun]
        exact (compressList_error rest i (some (seqAdd l 1))).trans (by simp [hlt])
      · simp only [compressList, if_pos hlt, if_neg hrun, exMap_eq_error]
        exact (compressList_error rest i none).trans (by simp [hlt])
    · simp only [compressList, if_neg hlt]
      simp [hlt]
  | i :: rest, cur, none => by
    rw [List.chain'_cons]
    by_cases hlt : seqLt cur i
    · by_cases hrun : seqAdd cur 1 = i
      · simp only [compressList, if_pos hlt, if_pos hrun, exMap_eq_error]
        exact (compressList_error rest i (some cur)).trans (by simp [hlt])
      · simp only [compressList, if_pos hlt, if_neg hrun, exMap_eq_error]
        exact (compressList_error rest i none).trans (by simp [hlt])
    · simp only [compressList, if_neg hlt]
      simp [hlt]

theorem compress_eq_runsSpec (xs : List Nat) (hch : List.Chain' seqLt xs)
    (hb : ∀ x ∈ xs, x < 2 ^ 31) : compress_loss_list xs = .ok (runsSpec xs) := by
  cases xs with
  | nil => exact compress_nil
  | cons x rest =>
    rw [compress_cons]
    have h := compressList_runs rest x none hch hb (by simp)
    simpa [runsSpec] using h

theorem compress_error_iff (xs : List Nat) :
    compress_loss_list xs = .error .orderingViolation ↔ ¬ List.Chain' seqLt xs := by
  cases xs with
  | nil =>
    rw [compress_nil]
    simp
  | cons x rest =>
    rw [compress_cons]
    exact compressList_error rest x none

theorem exMap_congr {ε α β : Type} {f g : α → β} (h : ∀ a, f a = g a) (x : Except ε α) :
    x.map f = x.map g := by
  cases x with
  | error e => rfl
  | ok a =>
    show Except.ok (f a) = Except.ok (g a)
    rw [h a]

theorem decompressFused_step (s : DecompressLossList) (hwf : wfD s) :
    decompressFused s =
      (match decompressNext s with
       | .error e => .error e
       | .ok none => .ok []
       | .ok (some (x, s2)) => (decompressFused s2).map (x :: ·)) := by
  obtain ⟨it, lne⟩ := s
  cases lne with
  | some p =>
    obtain ⟨n, e⟩ := p
    obtain ⟨hn, he⟩ := hwf.2 n e rfl
    by_cases hne : n = e
    · subst hne
      have hd : decompressNext ⟨it, some (n, n)⟩ =
          .ok (some (newTruncate n, ⟨it, none⟩)) := by
        simp [decompressNext]
      rw [hd]
      show (decompressGo it).map (loopList n n ++ ·) =
        (decompressFused ⟨it, none⟩).map (newTruncate n :: ·)
      rw [loopList_self]
      exact exMap_congr (fun l => by simp [newTruncate]) _
    · have hd : decompressNext ⟨it, some (n, e)⟩ =
          .ok (some (newTruncate n, ⟨it, some ((n + 1) % 2 ^ 32, e)⟩)) := by
        simp [decompressNext, if_neg hne]
      rw [hd]
      show (decompressGo it).map (loopList n e ++ ·) =
        (decompressFused ⟨it, some ((n + 1) % 2 ^ 32, e)⟩).map (newTruncate n :: ·)
      show (decompressGo it).map (loopList n e ++ ·) =
        ((decompressGo it).map (loopList ((n + 1) % 2 ^ 32) e ++ ·)).map (newTruncate n :: ·)
      rw [exMap_map, loopList_step hn he hne]
      exact exMap_congr (fun l => by simp [newTruncate]) _
  | none =>
    cases it with
    | nil => rfl
    | cons w rest =>
      by_cases hmsb : w &&& (1 <<< 31) ≠ 0
      · cases rest with
        | nil =>
          have hd : decompressNext ⟨[w], none⟩ = .error .unterminatedRun := by
            simp only [decompressNext]
            rw [if_pos hmsb]
          rw [hd]
          show decompressGo [w] = _
          simp only [decompressGo]
          rw [if_pos hmsb]
        | cons e rest2 =>
          have hd : decompressNext ⟨w :: e :: rest2, none⟩ =
              .ok (some (newTruncate (w &&& (2 ^ 31 - 1)),
                ⟨rest2, some ((w &&& (2 ^ 31 - 1)) + 1, e)⟩)) := by
            simp only [decompressNext]
            rw [if_pos hmsb]
          rw [hd]
          show decompressGo (w :: e :: rest2) =
            (decompressFused ⟨rest2, some ((w &&& (2 ^ 31 - 1)) + 1, e)⟩).map
              (newTruncate (w &&& (2 ^ 31 - 1)) :: ·)
          simp only [decompressGo]
          rw [if_pos hmsb]
          show (decompressGo rest2).map (expandRun (w &&& (2 ^ 31 - 1)) e ++ ·) =
            ((decompressGo rest2).map (loopList ((w &&& (2 ^ 31 - 1)) + 1) e ++ ·)).map
              (newTruncate (w &&& (2 ^ 31 - 1)) :: ·)
          rw [exMap_map]
          exact exMap_congr (fun l => by rw [expandRun_eq]; simp [newTruncate]) _
      · have hd : decompressNext ⟨w :: rest, none⟩ =
            .ok (some (newTruncate w, ⟨rest, none⟩)) := by
          simp only [decompressNext]
          rw [if_neg hmsb]
        rw [hd]
        show decompressGo (w :: rest) = (decompressFused ⟨rest, none⟩).map (newTruncate w :: ·)
        cases rest with
        | nil =>
          simp only [decompressGo]
          rw [if_neg hmsb]
          rfl
        | cons e rest2 =>
          simp only [decompressGo]
          rw [if_neg hmsb]
          rfl

theorem decompressNext_step {s : DecompressLossList} {x : Nat} {s2 : DecompressLossList}
    (hwf : wfD s) (h : decompressNext s = .ok (some (x, s2))) : wfD s2 ∧ muD s2 < muD s := by
  obtain ⟨it, lne⟩ := s
  cases lne with
  | some p =>
    obtain ⟨n, e⟩ := p
    obtain ⟨hn, he⟩ := hwf.2 n e rfl
    by_cases hne : n = e
    · subst hne
      have hd : decompressNext ⟨it, some (n, n)⟩ =
          .ok (some (newTruncate n, ⟨it, none⟩)) := by
        simp [decompressNext]
      rw [hd] at h
      simp only [Except.ok.injEq, Option.some.injEq, Prod.mk.injEq] at h
      obtain ⟨-, rfl⟩ := h
      refine ⟨⟨hwf.1, ?_⟩, ?_⟩
      · intro a b hab
        exact absurd hab (by simp)
      · simp only [muD, dist32_self]
        omega
    · have hd : decompressNext ⟨it, some (n, e)⟩ =
          .ok (some (newTruncate n, ⟨it, some ((n + 1) % 2 ^ 32, e)⟩)) := by
        simp only [decompressNext]
        rw [if_neg hne]
      rw [hd] at h
      simp only [Except.ok.injEq, Option.some.injEq, Prod.mk.injEq] at h
      obtain ⟨-, rfl⟩ := h
      refine ⟨⟨hwf.1, ?_⟩, ?_⟩
      · intro a b hab
        simp only [Option.some.injEq, Prod.mk.injEq] at hab
        obtain ⟨rfl, rfl⟩ := hab
        exact ⟨Nat.mod_lt _ (by norm_num), he⟩
      · have hstep := dist32_succ hn he hne
        simp only [muD]
        omega
  | none =>
    cases it with
    | nil => simp [decompressNext] at h
    | cons w rest =>
      by_cases hmsb : w &&& (1 <<< 31) ≠ 0
      · cases rest with
        | nil =>
          have hd : decompressNext ⟨[w], none⟩ = .error .unterminatedRun := by
            simp only [decompressNext]
            rw [if_pos hmsb]
          rw [hd] at h
          exact absurd h (by simp)
        | cons e rest2 =>
          have hd : decompressNext ⟨w :: e :: rest2, none⟩ =
              .ok (some (newTruncate (w &&& (2 ^ 31 - 1)),
                ⟨rest2, some ((w &&& (2 ^ 31 - 1)) + 1, e)⟩)) := by
            simp only [decompressNext]
            rw [if_pos hmsb]
          rw [hd] at h
          simp only [Except.ok.injEq, Option.some.injEq, Prod.mk.injEq] at h
          obtain ⟨-, rfl⟩ := h
          have hm : w &&& (2 ^ 31 - 1) < 2 ^ 31 := by
            rw [and_mask31]
            exact Nat.mod_lt _ (by norm_num)
          refine ⟨⟨?_, ?_⟩, ?_⟩
          · intro u hu
            exact hwf.1 u (List.mem_cons_of_mem _ (List.mem_cons_of_mem _ hu))
          · intro a b hab
            simp only [Option.some.injEq, Prod.mk.injEq] at hab
            obtain ⟨rfl, rfl⟩ := hab
            exact ⟨by omega, hwf.1 e (List.mem_cons_of_mem _ (List.mem_cons_self _ _))⟩
          · have hlt := dist32_lt ((w &&& (2 ^ 31 - 1)) + 1) e
            simp only [muD, List.length_cons]
            omega
      · have hd : decompressNext ⟨w :: rest, none⟩ =
            .ok (some (newTruncate w, ⟨rest, none⟩)) := by
          simp only [decompressNext]
          rw [if_neg hmsb]
        rw [hd] at h
        simp only [Except.ok.injEq, Option.some.injEq, Prod.mk.injEq] at h
        obtain ⟨-, rfl⟩ := h
        refine ⟨⟨fun u hu => hwf.1 u (List.mem_cons_of_mem _ hu), ?_⟩, ?_⟩
        · intro a b hab
          exact absurd hab (by simp)
        · simp only [muD, List.length_cons]
          omega

theorem collectD_eq : ∀ (fuel : Nat) (s : DecompressLossList), wfD s → muD s < fuel →
    collectDecompress fuel s = decompressFused s
  | 0, _, _, h => absurd h (by omega)
  | fuel + 1, s, hwf, h => by
    rw [collectDecompress, decompressFused_step s hwf]
    cases hn : decompressNext s with
    | error e => rfl
    | ok o =>
      cases o with
      | none => rfl
      | some p =>
        obtain ⟨x, s2⟩ := p
        obtain ⟨hwf2, hmu⟩ := decompressNext_step hwf hn
        show (collectDecompress fuel s2).map (x :: ·) = (decompressFused s2).map (x :: ·)
        rw [collectD_eq fuel s2 hwf2 (by omega)]

theorem decompress_eq_ranges (xs : List Nat) :
    decompress_loss_list xs = decompressRanges xs := by
  have hwf : wfD ⟨xs.map (· % 2 ^ 32), none⟩ := by
    refine ⟨?_, ?_⟩
    · intro w hw
      obtain ⟨a, -, rfl⟩ := List.mem_map.mp hw
      exact Nat.mod_lt _ (by norm_num)
    · intro n e hne
      exact absurd hne (by simp)
  have hmu : muD ⟨xs.map (· % 2 ^ 32), none⟩ < xs.length * (2 ^ 32 + 2) + 1 := by
    simp [muD]
  exact collectD_eq _ _ hwf hmu

theorem decompressGo_error : ∀ (ws : List Nat),
    (decompressGo ws = .error .unterminatedRun ↔ hasTrailingRunStart ws = true)
  | [] => by
    simp [decompressGo, hasTrailingRunStart]
  | [w] => by
    by_cases hmsb : w &&& (1 <<< 31) ≠ 0
    · have hm : w &&& 2147483648 ≠ 0 := by simpa using hmsb
      simp only [decompressGo, hasTrailingRunStart]
      rw [if_pos hmsb]
      simp [bne_iff_ne, hm]
    · have hm : w &&& 2147483648 = 0 := by simpa using hmsb
      simp only [decompressGo, hasTrailingRunStart]
      rw [if_neg hmsb]
      simp [hm, Except.map]
  | w :: e :: rest => by
    by_cases hmsb : w &&& (1 <<< 31) ≠ 0
    · simp only [decompressGo, hasTrailingRunStart]
      rw [if_pos hmsb, if_pos hmsb, exMap_eq_error]
      exact decompressGo_error rest
    · simp only [decompressGo, hasTrailingRunStart]
      rw [if_neg hmsb, if_neg hmsb, exMap_eq_error]
      exact decompressGo_error (e :: rest)

theorem seqOk_succ {a b : Nat} (hab : seqOk a b) (hb2 : b = seqAdd a 1)
    (ha : a < 2 ^ 31) : b = a + 1 ∧ a + 1 < 2 ^ 31 := by
  by_cases h : a + 1 < 2 ^ 31
  · rw [hb2, seqAdd, Nat.mod_eq_of_lt h]
    exact ⟨rfl, h⟩
  · exfalso
    have ha1 : a + 1 = 2 ^ 31 := by omega
    have hb0 : b = 0 := by rw [hb2, seqAdd, ha1, Nat.mod_self]
    exact hab.2 ⟨by omega, hb0⟩

theorem decompressGo_run {s : Nat} (hs : s < 2 ^ 31) (e : Nat) (tail : List Nat) :
    decompressGo ((s ||| (1 <<< 31)) :: e :: tail) =
      (decompressGo tail).map (expandRun s e ++ ·) := by
  simp only [decompressGo]
  rw [if_pos (msb_set hs), or_mask31 hs]

theorem decompressGo_single {w : Nat} (hw : w < 2 ^ 31) (tail : List Nat) :
    decompressGo (w :: tail) = (decompressGo tail).map (w :: ·) := by
  have hneg : ¬(w &&& (1 <<< 31) ≠ 0) := fun h => h (msb_clear hw)
  cases tail with
  | nil =>
    simp only [decompressGo]
    rw [if_neg hneg, Nat.mod_eq_of_lt hw]
  | cons t ts =>
    simp only [decompressGo]
    rw [if_neg hneg]
    exact exMap_congr (fun l => by rw [Nat.mod_eq_of_lt hw]) _

theorem runsGo_decode : ∀ (N : Nat) (it : List Nat), it.length ≤ N →
    ((∀ cur, cur < 2 ^ 31 → (∀ y ∈ it, y < 2 ^ 31) → List.Chain' seqOk (cur :: it) →
        decompressGo (runsGo false cur it) = .ok (cur :: it)) ∧
      (∀ lst s, s < lst → lst < 2 ^ 31 → (∀ y ∈ it, y < 2 ^ 31) →
        List.Chain' seqOk (lst :: it) →
        decompressGo ((s ||| (1 <<< 31)) :: runsGo true lst it) =
          .ok (List.range' s (lst - s + 1) ++ it)))
  | _, [], _ => by
    constructor
    · intro cur hcur _ _
      show decompressGo [cur] = .ok [cur]
      rw [decompressGo_single hcur]
      rfl
    · intro lst s hslst hlst _ _
      show decompressGo [s ||| (1 <<< 31), lst] = .ok (List.range' s (lst - s + 1) ++ [])
      rw [decompressGo_run (by omega) lst, expandRun_lt hslst hlst]
      simp [decompressGo, Except.map]
  | N + 1, y :: ys, hlen => by
    have hys : ys.length ≤ N := by simpa using hlen
    obtain ⟨ihA, ihB⟩ := runsGo_decode N ys hys
    constructor
    · intro cur hcur hb hch
      have hy31 : y < 2 ^ 31 := hb y (List.mem_cons_self _ _)
      have hbys : ∀ u ∈ ys, u < 2 ^ 31 := fun u hu => hb u (List.mem_cons_of_mem _ hu)
      have hok : seqOk cur y := (List.chain'_cons.mp hch).1
      have hch2 : List.Chain' seqOk (y :: ys) := (List.chain'_cons.mp hch).2
      by_cases hrun : y = seqAdd cur 1
      · obtain ⟨hy, hc1⟩ := seqOk_succ hok hrun hcur
        simp only [runsGo, if_pos hrun]
        rw [ihB y cur (by omega) hy31 hbys hch2]
        subst hy
        have h2 : cur + 1 - cur + 1 = 2 := by omega
        rw [h2]
        rfl
      · simp only [runsGo, if_neg hrun]
        rw [decompressGo_single hcur, ihA y hy31 hbys hch2]
        rfl
    · intro lst s hslst hlst hb hch
      have hy31 : y < 2 ^ 31 := hb y (List.mem_cons_self _ _)
      have hbys : ∀ u ∈ ys, u < 2 ^ 31 := fun u hu => hb u (List.mem_cons_of_mem _ hu)
      have hok : seqOk lst y := (List.chain'_cons.mp hch).1
      have hch2 : List.Chain' seqOk (y :: ys) := (List.chain'_cons.mp hch).2
      by_cases hrun : y = seqAdd lst 1
      · obtain ⟨hy, hl1⟩ := seqOk_succ hok hrun hlst
        simp only [runsGo, if_pos hrun]
        rw [ihB y s (by omega) hy31 hbys hch2]
        congr 1
        subst hy
        have h1 : lst + 1 - s + 1 = (lst - s + 1) + 1 := by omega
        rw [h1, List.range'_concat]
        have h2 : s + 1 * (lst - s + 1) = lst + 1 := by omega
        rw [h2, List.append_assoc]
        rfl
      · simp only [runsGo, if_neg hrun]
        rw [decompressGo_run (by omega) lst, ihA y hy31 hbys hch2]
        show Except.ok (expandRun s lst ++ (y :: ys)) = _
        rw [expandRun_lt hslst hlst]
  termination_by N _ => N

theorem runsGo_bound : ∀ (it : List Nat) (b : Bool) (cur : Nat), cur < 2 ^ 31 →
    (∀ y ∈ it, y < 2 ^ 31) → ∀ w ∈ runsGo b cur it, w < 2 ^ 32
  | [], b, cur, hcur, _, w, hw => by
    cases b <;> simp only [runsGo, List.mem_singleton] at hw <;> omega
  | y :: ys, true, cur, hcur, hb, w, hw => by
    have hy := hb y (List.mem_cons_self _ _)
    have hbys : ∀ u ∈ ys, u < 2 ^ 31 := fun u hu => hb u (List.mem_cons_of_mem _ hu)
    by_cases hrun : y = seqAdd cur 1
    · simp only [runsGo, if_pos hrun] at hw
      exact runsGo_bound ys true y hy hbys w hw
    · simp only [runsGo, if_neg hrun, List.mem_cons] at hw
      rcases hw with rfl | hw
      · omega
      · exact runsGo_bound ys false y hy hbys w hw
  | y :: ys, false, cur, hcur, hb, w, hw => by
    have hy := hb y (List.mem_cons_self _ _)
    have hbys : ∀ u ∈ ys, u < 2 ^ 31 := fun u hu => hb u (List.mem_cons_of_mem _ hu)
    by_cases hrun : y = seqAdd cur 1
    · simp only [runsGo, if_pos hrun, List.mem_cons] at hw
      rcases hw with rfl | hw
      · exact or31_lt hcur
      · exact runsGo_bound ys true y hy hbys w hw
    · simp only [runsGo, if_neg hrun, List.mem_cons] at hw
      rcases hw with rfl | hw
      · omega
      · exact runsGo_bound ys false y hy hbys w hw

theorem roundtrip_ok (xs : List Nat) (hb : ∀ x ∈ xs, x < 2 ^ 31)
    (hch : List.Chain' seqOk xs) :
    (compress_loss_list xs).bind decompress_loss_list = .ok xs := by
  have hlt : List.Chain' seqLt xs := hch.imp (fun a b h => h.1)
  rw [compress_eq_runsSpec xs hlt hb]
  show decompress_loss_list (runsSpec xs) = .ok xs
  rw [decompress_eq_ranges]
  have hident : (runsSpec xs).map (· % 2 ^ 32) = runsSpec xs := by
    cases xs with
    | nil => rfl
    | cons x rest =>
      have hbd := runsGo_bound rest false x (hb x (List.mem_cons_self _ _))
        (fun u hu => hb u (List.mem_cons_of_mem _ hu))
      have h1 := List.map_congr_left
        (fun a ha => Nat.mod_eq_of_lt (hbd a ha) : ∀ a ∈ runsGo false x rest,
          a % 2 ^ 32 = a)
      simpa [runsSpec] using h1
  show decompressGo ((runsSpec xs).map (· % 2 ^ 32)) = .ok xs
  rw [hident]
  cases xs with
  | nil => rfl
  | cons x rest =>
    exact (runsGo_decode rest.length rest le_rfl).1 x (hb x (List.mem_cons_self _ _))
      (fun u hu => hb u (List.mem_cons_of_mem _ hu)) hch

/-- Claim C1, counterexample: the input `[2^31 - 1, 0]` is strictly ascending in the
31-bit modular-comparison sense and crosses the wrap boundary, yet
`decompress_loss_list (compress_loss_list xs)` does not give back `xs`: the compressor
emits the run `[0xFFFFFFFF, 0]`, and the decompressor's run loop compares its cursor
against the run end with raw 32-bit equality, so it walks the whole 32-bit circle
(`2^31 + 2` numbers) instead of stopping after two. -/
theorem C1_roundtrip_counterexample :
    List.Chain' seqLt [2 ^ 31 - 1, 0] ∧
      (compress_loss_list [2 ^ 31 - 1, 0]).bind decompress_loss_list ≠
        .ok [2 ^ 31 - 1, 0] := by
  refine ⟨by simp only [List.chain'_cons, List.chain'_singleton]; decide, ?_⟩
  have hc : compress_loss_list [2 ^ 31 - 1, 0] = .ok [(2 ^ 31 - 1) ||| (1 <<< 31), 0] := by
    decide
  rw [hc, exBind_ok, decompress_eq_ranges]
  have hmap : ([(2 ^ 31 - 1) ||| (1 <<< 31), 0] : List Nat).map (· % 2 ^ 32) =
      [(2 ^ 31 - 1) ||| (1 <<< 31), 0] := by decide
  simp only [decompressRanges]
  rw [hmap, decompressGo_run (by norm_num) 0]
  intro h
  have h2 : expandRun (2 ^ 31 - 1) 0 ++ [] = [2 ^ 31 - 1, 0] := by
    simpa [decompressGo, Except.map] using h
  have h3 := congrArg List.length h2
  simp [expandRun, dist32] at h3

/-- Claim C1 (amended): for every list of sequence numbers that is strictly ascending in
the 31-bit modular sense and whose consecutive steps never cross the `2^31 - 1 → 0`
wrap boundary, decompressing the compressed loss list yields exactly the input.  (The
counterexample forces the wrap exclusion: a run that crosses the boundary decompresses
to the whole 32-bit circle.) -/
theorem C1_roundtrip (xs : List Nat) (hb : ∀ x ∈ xs, x < 2 ^ 31)
    (hch : List.Chain' seqOk xs) :
    (compress_loss_list xs).bind decompress_loss_list = .ok xs :=
  roundtrip_ok xs hb hch

/-- Witness for C1 at the spec's own example `[13, 14, 15, 16, 17, 18, 19]`. -/
theorem C1_roundtrip_witness :
    ((∀ x ∈ ([13, 14, 15, 16, 17, 18, 19] : List Nat), x < 2 ^ 31) ∧
      List.Chain' seqOk [13, 14, 15, 16, 17, 18, 19]) ∧
      (compress_loss_list [13, 14, 15, 16, 17, 18, 19]).bind decompress_loss_list =
        .ok [13, 14, 15, 16, 17, 18, 19] :=
  ⟨⟨by decide, by simp only [List.chain'_cons, List.chain'_singleton]; decide⟩,
    C1_roundtrip _ (by decide)
      (by simp only [List.chain'_cons, List.chain'_singleton]; decide)⟩

/-- Claim C2: on every strictly ascending input the compressor emits each maximal run of
two or more consecutive sequence numbers as its first element with bit 31 set followed
by the run's last element (interior elements skipped), and each singleton verbatim —
i.e. it equals the run-length description `runsSpec`. -/
theorem C2_run_encoding (xs : List Nat) (hch : List.Chain' seqLt xs)
    (hb : ∀ x ∈ xs, x < 2 ^ 31) : compress_loss_list xs = .ok (runsSpec xs) :=
  compress_eq_runsSpec xs hch hb

/-- Witness for C2 at the spec's mixed-runs example, checking the exact claimed output
`[1|MSB, 5, 9, 11|MSB, 13, 16|MSB, 17]`. -/
theorem C2_run_encoding_witness :
    (List.Chain' seqLt [1, 2, 3, 4, 5, 9, 11, 12, 13, 16, 17] ∧
      (∀ x ∈ ([1, 2, 3, 4, 5, 9, 11, 12, 13, 16, 17] : List Nat), x < 2 ^ 31)) ∧
      compress_loss_list [1, 2, 3, 4, 5, 9, 11, 12, 13, 16, 17] =
        .ok [1 ||| (1 <<< 31), 5, 9, 11 ||| (1 <<< 31), 13, 16 ||| (1 <<< 31), 17] := by
  refine ⟨⟨by simp only [List.chain'_cons, List.chain'_singleton]; decide, by decide⟩, ?_⟩
  rw [C2_run_encoding _
    (by simp only [List.chain'_cons, List.chain'_singleton]; decide) (by decide)]
  decide

/-- Claim C3, counterexample: decoding `[10 | (1 << 31), 10]` — a run whose end word
equals the masked start — does not yield just the inclusive range `[10, 10] = [10]`:
the decoder yields `10` and then keeps walking the 32-bit circle. -/
theorem C3_ranges_counterexample :
    decompress_loss_list [10 ||| (1 <<< 31), 10] ≠ .ok [10] := by
  rw [decompress_eq_ranges]
  have hmap : ([10 ||| (1 <<< 31), 10] : List Nat).map (· % 2 ^ 32) =
      [10 ||| (1 <<< 31), 10] := by decide
  simp only [decompressRanges]
  rw [hmap, decompressGo_run (by norm_num) 10]
  intro h
  have h2 : expandRun 10 10 ++ [] = [10] := by
    simpa [decompressGo, Except.map] using h
  have h3 := congrArg List.length h2
  simp [expandRun, dist32] at h3

/-- Claim C3 (amended): for every input word list, the decompressor yields each word
with bit 31 clear (in non-run-end position) as that number truncated to 31 bits, and
for each word `w` with bit 31 set followed by a word `e` it yields the
`((e - (w & 0x7FFFFFFF) - 1) mod 2^32) + 2` numbers starting at `w & 0x7FFFFFFF` and
stepping with 32-bit wraparound until it hits `e`, each truncated to 31 bits — which is
the inclusive ascending range `[w & 0x7FFFFFFF, e]` exactly when `e` raw-exceeds
`w & 0x7FFFFFFF`, and wraps the whole 32-bit space when `e` equals or raw-precedes it.
This is `decompressRanges`, and the iterator computes exactly it. -/
theorem C3_ranges (xs : List Nat) : decompress_loss_list xs = decompressRanges xs :=
  decompress_eq_ranges xs

/-- Claim C4: compression fails with the ordering violation exactly when some adjacent
pair of the input is out of order in the modular sense (the scan asserts each adjacent
pair in order, so the first violating pair trips it); it never returns an encoding for
such an input. -/
theorem C4_ordering_violation (xs : List Nat) (_hb : ∀ x ∈ xs, x < 2 ^ 31) :
    compress_loss_list xs = .error .orderingViolation ↔ ¬ List.Chain' seqLt xs :=
  compress_error_iff xs

/-- Witness for C4 at the spec's example `[10, 1]`. -/
theorem C4_ordering_violation_witness :
    (∀ x ∈ ([10, 1] : List Nat), x < 2 ^ 31) ∧
      (compress_loss_list [10, 1] = .error .orderingViolation ↔
        ¬ List.Chain' seqLt [10, 1]) :=
  ⟨by decide, C4_ordering_violation _ (by decide)⟩

/-- Claim C5: decompression fails with the unterminated-run error exactly when the word
list ends with a run-start word (bit 31 set, in run-start position) that has no
successor word; with no trailing unterminated run start the failure never occurs. -/
theorem C5_unterminated_run (xs : List Nat) (hw : ∀ w ∈ xs, w < 2 ^ 32) :
    decompress_loss_list xs = .error .unterminatedRun ↔ hasTrailingRunStart xs = true := by
  rw [decompress_eq_ranges]
  have hmap : xs.map (· % 2 ^ 32) = xs := by
    have h1 := List.map_congr_left
      (fun a ha => Nat.mod_eq_of_lt (hw a ha) : ∀ a ∈ xs, a % 2 ^ 32 = a)
    simpa using h1
  show decompressGo (xs.map (· % 2 ^ 32)) = _ ↔ _
  rw [hmap]
  exact decompressGo_error xs

/-- Witness for C5 at the spec's example `[10 | (1 << 31)]`. -/
theorem C5_unterminated_run_witness :
    (∀ w ∈ ([10 ||| (1 <<< 31)] : List Nat), w < 2 ^ 32) ∧
      (decompress_loss_list [10 ||| (1 <<< 31)] = .error .unterminatedRun ↔
        hasTrailingRunStart [10 ||| (1 <<< 31)] = true) :=
  ⟨by decide, C5_unterminated_run _ (by decide)⟩

/-- Claim C7: the TSBPD latency settled at handshake completion is the maximum of the
two locally proposed latencies, the same on both sides (swapping the proposers does not
change it); at the spec's test values, a listener proposing 827 ms against a peer
proposing 182 ms settles at 827 ms, and a caller proposing 99 ms against a peer
proposing 123 ms settles at 123 ms. -/
theorem C7_latency_negotiation :
    (∀ a b : Nat, agreed_tsbpd_latency a b = max a b ∧
      agreed_tsbpd_latency a b = agreed_tsbpd_latency b a) ∧
      agreed_tsbpd_latency 827 182 = 827 ∧ agreed_tsbpd_latency 99 123 = 123 :=
  ⟨fun a b => ⟨rfl, Nat.max_comm a b⟩, by decide, by decide⟩

/-- Claim C8: `connect_with_sock` validates the crypto size before any handshake: with
no crypto configured or size 16, 24 or 32 it proceeds to dispatch the chosen
pending-connection routine, and with any other size it returns the invalid-crypto-size
error without dispatching anything. -/
theorem C8_crypto_validation (b : SrtSocketBuilder) :
    (b.crypto = none → connect_with_sock b = .ok (connDispatch b)) ∧
      (∀ size passphrase, b.crypto = some (size, passphrase) →
        (size = 16 ∨ size = 24 ∨ size = 32) →
        connect_with_sock b = .ok (connDispatch b)) ∧
      (∀ size passphrase, b.crypto = some (size, passphrase) →
        size ≠ 16 → size ≠ 24 → size ≠ 32 →
        connect_with_sock b = .error (.invalidCryptoSize size)) := by
  refine ⟨?_, ?_, ?_⟩
  · intro h
    simp [connect_with_sock, h]
  · rintro size pass h (rfl | rfl | rfl) <;> simp [connect_with_sock, h]
  · intro size pass h h16 h24 h32
    simp only [connect_with_sock, h]

/-- Witness for C8: size 15 is rejected, size 24 and no crypto pass. -/
theorem C8_crypto_validation_witness :
    connect_with_sock ⟨0, .Listen, 50, some (15, "key")⟩ =
        .error (.invalidCryptoSize 15) ∧
      connect_with_sock ⟨0, .Listen, 50, some (24, "key")⟩ =
        .ok (connDispatch ⟨0, .Listen, 50, some (24, "key")⟩) ∧
      connect_with_sock ⟨0, .Listen, 50, none⟩ =
        .ok (connDispatch ⟨0, .Listen, 50, none⟩) :=
  ⟨(C8_crypto_validation _).2.2 15 "key" rfl (by decide) (by decide) (by decide),
    (C8_crypto_validation _).2.1 24 "key" rfl (by decide),
    (C8_crypto_validation _).1 rfl⟩

/-- Claim C9: evaluation of the code at a concrete address token.  Contrary to the
claim, `SrtSocketBuilder::new_rendezvous` stores `ConnInitMethod::Connect(addr)` (not
`Rendezvous(addr)`), so `connect_with_sock` dispatches the caller (`connect`)
pending-connection state machine instead of the rendezvous one. -/
theorem C9_new_rendezvous_is_connect :
    (SrtSocketBuilder.new_rendezvous 7).conn_type = .Connect 7 ∧
      connect_with_sock (SrtSocketBuilder.new_rendezvous 7) =
        .ok (.connect 7 0 50 none) :=
  ⟨rfl, rfl⟩

/-- Claim C10: `build_multiplexed` succeeds (binding the multiplex server at the
builder's local address and latency) exactly in `Listen` mode, and returns the
multiplex error, binding nothing, for `Connect` and `Rendezvous` builders. -/
theorem C10_multiplex_requires_listen (b : SrtSocketBuilder) :
    (b.conn_type = .Listen → build_multiplexed b = .ok (.bind b.local_addr b.latency)) ∧
      (∀ addr, b.conn_type = .Connect addr →
        build_multiplexed b = .error .multiplexModeNotListen) ∧
      (∀ addr, b.conn_type = .Rendezvous addr →
        build_multiplexed b = .error .multiplexModeNotListen) := by
  refine ⟨?_, ?_, ?_⟩
  · intro h
    simp [build_multiplexed, h]
  · intro addr h
    simp [build_multiplexed, h]
  · intro addr h
    simp [build_multiplexed, h]

/-- Witness for C10 at concrete builders of all three modes. -/
theorem C10_multiplex_requires_listen_witness :
    build_multiplexed SrtSocketBuilder.new_listen = .ok (.bind 0 50) ∧
      build_multiplexed (SrtSocketBuilder.new_connect 3) =
        .error .multiplexModeNotListen ∧
      build_multiplexed (SrtSocketBuilder.new (.Rendezvous 4)) =
        .error .multiplexModeNotListen :=
  ⟨(C10_multiplex_requires_listen _).1 rfl,
    (C10_multiplex_requires_listen _).2.1 3 rfl,
    (C10_multiplex_requires_listen _).2.2 4 rfl⟩
